import Mathlib

/-!
Verification of the blog SEO analyzer (`blog_seo_analyser.py`).

The whole program is a linear pipeline over a text buffer:
load → extract title → strip markdown → three scorers → meta description →
overall score → printed report.  We shallowly embed every piece over
`List Char`.  Python's regular-expression operations are modelled by
explicit matcher functions plus generic substitution / search / count
scans over the character list; Python `\s` is modelled as the six ASCII
whitespace characters and `\w` as alphanumeric-or-underscore (the source
is only ever exercised on such text, and the regexes treat every
character class uniformly).  Python floats are modelled exactly as `ℚ`;
`round(x, 1)` is modelled as `round (x * 10) / 10`, which agrees with
Python on every value the program can produce (all the quantities rounded
here are thirds of integers, so no tie ever occurs).  Scanning functions
recurse on an explicit fuel argument (always instantiated with the text
length, and every scan step consumes at least one character), keeping
every definition kernel-evaluable.
-/

namespace BlogSEO

/-- Python `\s` (ASCII range): space, tab, newline, carriage return,
vertical tab, form feed. -/
def isWS (c : Char) : Bool :=
  c == ' ' || c == '\t' || c == '\n' || c == '\r' || c == '\x0b' || c == '\x0c'

/-- Python `\w` (ASCII range): letters, digits, underscore. -/
def isWordChar (c : Char) : Bool :=
  c.isAlphanum || c == '_'

def lowerL (l : List Char) : List Char := l.map Char.toLower

/-- `str.strip()` from the right. -/
def dropTrail (l : List Char) : List Char := (l.reverse.dropWhile isWS).reverse

/-- Python `str.strip()`. -/
def trimL (l : List Char) : List Char := dropTrail (l.dropWhile isWS)

/-! ## Generic regex-substitution scans

`re.sub` walks the text left to right; at each position it tries the
pattern, replaces a match and resumes after it, otherwise moves one
character.  An unanchored matcher returns `(replacement, rest)`.
A `^`-anchored (MULTILINE) matcher is only tried at line starts and
returns `(rest, next-position-follows-a-newline)`. -/

def subScanGo (m : List Char → Option (List Char × List Char)) :
    Nat → List Char → List Char
  | 0, l => l
  | _ + 1, [] => []
  | fuel + 1, c :: cs =>
    match m (c :: cs) with
    | some (rep, rest) => rep ++ subScanGo m fuel rest
    | none => c :: subScanGo m fuel cs

def subScan (m : List Char → Option (List Char × List Char)) (l : List Char) :
    List Char :=
  subScanGo m l.length l

/-- Does the unanchored matcher succeed at any position? -/
def hasMatchB (m : List Char → Option (List Char × List Char)) :
    List Char → Bool
  | [] => false
  | c :: cs => (m (c :: cs)).isSome || hasMatchB m cs

def lineScanGo (m : List Char → Option (List Char × Bool)) :
    Nat → Bool → List Char → List Char
  | 0, _, l => l
  | _ + 1, _, [] => []
  | fuel + 1, atStart, c :: cs =>
    match (if atStart then m (c :: cs) else none) with
    | some (rest, flag) => lineScanGo m fuel flag rest
    | none => c :: lineScanGo m fuel (c == '\n') cs

def lineScan (m : List Char → Option (List Char × Bool)) (l : List Char) :
    List Char :=
  lineScanGo m l.length true l

/-- Does the anchored matcher succeed at any line-start position? -/
def hasLineB (m : List Char → Option (List Char × Bool)) :
    Bool → List Char → Bool
  | _, [] => false
  | atStart, c :: cs =>
    (atStart && (m (c :: cs)).isSome) || hasLineB m (c == '\n') cs

/-- `len(re.findall(anchored-pattern, text, re.MULTILINE))`. -/
def lineCountGo (m : List Char → Option (List Char × Bool)) :
    Nat → Bool → List Char → Nat
  | 0, _, _ => 0
  | _ + 1, _, [] => 0
  | fuel + 1, atStart, c :: cs =>
    match (if atStart then m (c :: cs) else none) with
    | some (rest, flag) => 1 + lineCountGo m fuel flag rest
    | none => lineCountGo m fuel (c == '\n') cs

def lineCount (m : List Char → Option (List Char × Bool)) (l : List Char) :
    Nat :=
  lineCountGo m l.length true l

/-- `len(re.findall(unanchored-pattern, text))`. -/
def posCountGo (m : List Char → Option (List Char)) : Nat → List Char → Nat
  | 0, _ => 0
  | _ + 1, [] => 0
  | fuel + 1, c :: cs =>
    match m (c :: cs) with
    | some rest => 1 + posCountGo m fuel rest
    | none => posCountGo m fuel cs

def posCount (m : List Char → Option (List Char)) (l : List Char) : Nat :=
  posCountGo m l.length l

/-! ## The individual regex matchers -/

/-- Guard of `^#{1,6}\s+.*$` at a line start: one to six `#` followed by a
whitespace character (`\s` may be a newline, so a hashes-only line whose
newline follows also matches, exactly as in Python). -/
def headerOk (l : List Char) : Bool :=
  let n := (l.takeWhile (· == '#')).length
  decide (1 ≤ n) && decide (n ≤ 6) && ((l.drop n).head?.any isWS)

/-- Match of `re.sub(r'^#{1,6}\s+.*$', '', ·, flags=re.MULTILINE)` at a line
start.  Greedy `\s+` takes the maximal whitespace run (possibly across
newlines), then `.*` the maximal newline-free run; `$` then always holds,
so no backtracking occurs.  The match never ends just before a line start,
hence the `false` flag. -/
def headerM (l : List Char) : Option (List Char × Bool) :=
  if headerOk l then
    let n := (l.takeWhile (· == '#')).length
    some ((((l.drop n).dropWhile isWS).dropWhile (fun c => c != '\n')), false)
  else none

/-- Match of `\[([^\]]+)\]\([^\)]+\)` (link syntax): returns the captured
text (the replacement) and the rest of the input. -/
def linkM (l : List Char) : Option (List Char × List Char) :=
  match l with
  | '[' :: r1 =>
    let txt := r1.takeWhile (fun c => c != ']')
    if txt.isEmpty then none
    else
      match r1.drop txt.length with
      | ']' :: '(' :: r2 =>
        let url := r2.takeWhile (fun c => c != ')')
        if url.isEmpty then none
        else
          match r2.drop url.length with
          | ')' :: r3 => some (txt, r3)
          | _ => none
      | _ => none
  | _ => none

/-- Match of `!\[([^\]]*)\]\([^\)]+\)` (image syntax, alt may be empty);
the replacement is empty. -/
def imageM (l : List Char) : Option (List Char × List Char) :=
  match l with
  | '!' :: '[' :: r1 =>
    let alt := r1.takeWhile (fun c => c != ']')
    match r1.drop alt.length with
    | ']' :: '(' :: r2 =>
      let url := r2.takeWhile (fun c => c != ')')
      if url.isEmpty then none
      else
        match r2.drop url.length with
        | ')' :: r3 => some ([], r3)
        | _ => none
    | _ => none
  | _ => none

/-- Earliest occurrence of a closing ``` fence (the lazy `[\s\S]*?`). -/
def fenceClose : List Char → Option (List Char)
  | '`' :: '`' :: '`' :: r => some r
  | _ :: cs => fenceClose cs
  | [] => none

/-- Match of the fenced-code-block pattern; replacement empty. -/
def fenceM (l : List Char) : Option (List Char × List Char) :=
  match l with
  | '`' :: '`' :: '`' :: r => (fenceClose r).map (fun rest => ([], rest))
  | _ => none

/-- Match of inline code `` `([^`]+)` ``; replaced by its body. -/
def codeM (l : List Char) : Option (List Char × List Char) :=
  match l with
  | '`' :: r1 =>
    let body := r1.takeWhile (fun c => c != '`')
    if body.isEmpty then none
    else
      match r1.drop body.length with
      | '`' :: r2 => some (body, r2)
      | _ => none
  | _ => none

/-- Match of bold `\*\*([^\*]+)\*\*`; replaced by its body. -/
def boldM (l : List Char) : Option (List Char × List Char) :=
  match l with
  | '*' :: '*' :: r1 =>
    let body := r1.takeWhile (fun c => c != '*')
    if body.isEmpty then none
    else
      match r1.drop body.length with
      | '*' :: '*' :: r2 => some (body, r2)
      | _ => none
  | _ => none

/-- Match of italic `\*([^\*]+)\*`; replaced by its body. -/
def italicM (l : List Char) : Option (List Char × List Char) :=
  match l with
  | '*' :: r1 =>
    let body := r1.takeWhile (fun c => c != '*')
    if body.isEmpty then none
    else
      match r1.drop body.length with
      | '*' :: r2 => some (body, r2)
      | _ => none
  | _ => none

/-- Match of `^[\s]*[-\*\+]\s+` at a line start (list-item markers);
`[\s]*` and the trailing `\s+` may cross newlines.  The flag records
whether the last consumed character was a newline: if so the resume
position is again a line start. -/
def bulletM (l : List Char) : Option (List Char × Bool) :=
  let w := l.takeWhile isWS
  match l.drop w.length with
  | [] => none
  | c :: r =>
    if c == '-' || c == '*' || c == '+' then
      let w2 := r.takeWhile isWS
      if w2.isEmpty then none
      else some (r.drop w2.length, (w2.getLastD ' ') == '\n')
    else none

/-- Primary guard of `^#{2,6}\s+.+` at a line start: two to six `#`
followed by a whitespace character. -/
def subheadPre (l : List Char) : Bool :=
  let n := (l.takeWhile (· == '#')).length
  decide (2 ≤ n) && decide (n ≤ 6) && ((l.drop n).head?.any isWS)

/-- Match of `^#{2,6}\s+.+` (sub-heading pattern) at a line start.  If a
non-whitespace character follows the maximal whitespace run, `\s+` keeps
the full run and `.+` is the following newline-free run; otherwise the
engine backtracks `\s+` to end just before the last non-newline
whitespace character (which then forms `.+` by itself), leaving only the
trailing newlines.  Matches never end just before a line start. -/
def subheadM (l : List Char) : Option (List Char × Bool) :=
  if subheadPre l then
    let n := (l.takeWhile (· == '#')).length
    let r := l.drop n
    let w := r.takeWhile isWS
    let rest := r.drop w.length
    if rest.isEmpty then
      match (w.drop 1).reverse.dropWhile (· == '\n') with
      | [] => none
      | _ :: _ => some ((w.drop 1).reverse.takeWhile (· == '\n'), false)
    else some (rest.dropWhile (fun c => c != '\n'), false)
  else none

/-- Matcher used for counting links with `re.findall` (the count ignores
the captured group). -/
def linkCM (l : List Char) : Option (List Char) :=
  (linkM l).map (fun p => p.2)

/-! ## The cleaning pipeline (`_clean_markdown`) -/

def stripHeadersL (l : List Char) : List Char := lineScan headerM l
def linkSubL (l : List Char) : List Char := subScan linkM l
def imageSubL (l : List Char) : List Char := subScan imageM l
def fenceSubL (l : List Char) : List Char := subScan fenceM l
def codeSubL (l : List Char) : List Char := subScan codeM l
def boldSubL (l : List Char) : List Char := subScan boldM l
def italicSubL (l : List Char) : List Char := subScan italicM l
def bulletSubL (l : List Char) : List Char := lineScan bulletM l

/-- `BlogSEOAnalyzer._clean_markdown`: the six `re.sub` passes in source
order followed by `str.strip()`. -/
def cleanMarkdownL (text : List Char) : List Char :=
  trimL (bulletSubL (italicSubL (boldSubL (codeSubL (fenceSubL
    (imageSubL (linkSubL (stripHeadersL text))))))))

def cleanMarkdownS (s : String) : String := String.mk (cleanMarkdownL s.data)

/-! ## Title extraction (`re.search(r'^#\s+(.+)$', content, re.MULTILINE)`) -/

/-- The captured group of `^#\s+(.+)$` at a line start, with the same
greedy/backtracking behaviour as `subheadM` (a single `#` here). -/
def titleAtStart (l : List Char) : Option (List Char) :=
  match l with
  | '#' :: r =>
    let w := r.takeWhile isWS
    if w.isEmpty then none
    else
      let rest := r.drop w.length
      if rest.isEmpty then
        match (w.drop 1).reverse.dropWhile (· == '\n') with
        | [] => none
        | c :: _ => some [c]
      else some (rest.takeWhile (fun c => c != '\n'))
  | _ => none

/-- `re.search` walks every position; `^` restricts hits to line starts. -/
def titleSearchB : Bool → List Char → Option (List Char)
  | _, [] => none
  | atStart, c :: cs =>
    match (if atStart then titleAtStart (c :: cs) else none) with
    | some g => some g
    | none => titleSearchB (c == '\n') cs

/-- `load_content`'s title: the stripped captured group, or `""` (Python
leaves `self.title = ""`, which is falsy) when the search fails. -/
def extractTitle (raw : List Char) : List Char :=
  match titleSearchB true raw with
  | some g => trimL g
  | none => []

def extractTitleS (s : String) : String := String.mk (extractTitle s.data)

/-! ## Tokenisation and keyword machinery (`analyze_content`) -/

/-- `re.findall(r'\b\w+\b', text)`: the maximal word-character runs. -/
def tokenizeGo : Nat → List Char → List String
  | 0, _ => []
  | fuel + 1, l =>
    let l1 := l.dropWhile (fun c => !(isWordChar c))
    match l1 with
    | [] => []
    | _ :: _ =>
      let tok := l1.takeWhile isWordChar
      String.mk tok :: tokenizeGo fuel (l1.drop tok.length)

/-- Tokens of `self.content.lower()`. -/
def contentWords (content : List Char) : List String :=
  tokenizeGo content.length (lowerL content)

def wordCountOf (content : List Char) : Nat := (contentWords content).length

/-- The stop-word set of `analyze_content`. -/
def stopWords : List String :=
  ["the", "a", "an", "and", "or", "but", "in", "on", "at", "to", "for",
   "of", "with", "by", "is", "are", "was", "were", "be", "been", "being",
   "have", "has", "had", "do", "does", "did", "will", "would", "could",
   "should", "may", "might", "must", "can", "shall"]

def filteredWords (content : List Char) : List String :=
  (contentWords content).filter
    (fun w => !(stopWords.contains w) && decide (2 < w.length))

/-- The distinct elements of a list in first-occurrence order (the
iteration order of a Python `Counter`). -/
def firstOccurrences : List String → List String
  | [] => []
  | w :: ws => w :: (firstOccurrences ws).filter (fun v => v ≠ w)

/-- The `Counter` of the filtered words, in insertion order. -/
def wordFreq (content : List Char) : List (String × Nat) :=
  (firstOccurrences (filteredWords content)).map
    (fun w => (w, (filteredWords content).count w))

/-- Stable insertion (an element goes before every element of strictly
smaller count already present, after equal counts). -/
def insertDesc (p : String × Nat) : List (String × Nat) → List (String × Nat)
  | [] => [p]
  | q :: qs => if p.2 < q.2 then q :: insertDesc p qs else p :: q :: qs

/-- Stable sort by descending count — the order of
`Counter.most_common` (Python's `sorted` is stable, so ties keep
insertion order; a stable insertion sort produces the same list). -/
def sortByCountDesc : List (String × Nat) → List (String × Nat)
  | [] => []
  | p :: ps => insertDesc p (sortByCountDesc ps)

/-- `self.keywords = [w for w, c in word_freq.most_common(10) if c > 1]`. -/
def keywordsOf (content : List Char) : List String :=
  ((sortByCountDesc (wordFreq content)).take 10).filterMap
    (fun p => if 1 < p.2 then some p.1 else none)

/-- Python `str.count(sub)`: non-overlapping occurrences, scanning left to
right. -/
def strCountGo (sub : List Char) : Nat → List Char → Nat
  | 0, _ => 0
  | _ + 1, [] => 0
  | fuel + 1, c :: cs =>
    if sub.isPrefixOf (c :: cs) then
      1 + strCountGo sub fuel ((c :: cs).drop sub.length)
    else strCountGo sub fuel cs

def strCountL (hay sub : List Char) : Nat := strCountGo sub hay.length hay

/-- Python `str.split()`: whitespace-separated non-empty tokens. -/
def splitWSGo : Nat → List Char → List (List Char)
  | 0, _ => []
  | fuel + 1, l =>
    let l1 := l.dropWhile isWS
    match l1 with
    | [] => []
    | _ :: _ =>
      let tok := l1.takeWhile (fun c => !(isWS c))
      tok :: splitWSGo fuel (l1.drop tok.length)

def splitWS (l : List Char) : List (List Char) := splitWSGo l.length l

/-! ## The analysis results

The dictionaries returned by the three analyzers.  `analyze_title`'s
no-title branch returns a dict *without* the `length` and `suggestions`
keys; those fields are therefore `Option`s, and reading an absent key is
a Python `KeyError`. -/

structure TitleResult where
  score : Int
  length : Option Nat
  issues : List String
  suggestions : Option (List String)
deriving DecidableEq

structure ContentResult where
  score : Int
  word_count : Nat
  keywords : List String
  issues : List String
  suggestions : List String
deriving DecidableEq

structure StructResult where
  score : Int
  headings_count : Nat
  lists_count : Nat
  links_count : Nat
  issues : List String
  suggestions : List String
deriving DecidableEq

/-- `BlogSEOAnalyzer.analyze_title`. -/
def analyzeTitle (title : List Char) : TitleResult :=
  if title.isEmpty then
    { score := 0, length := none,
      issues := ["No title found (first # heading)"], suggestions := none }
  else
    let length := title.length
    let score1 : Int :=
      if length < 30 then 100 - 30 else if 60 < length then 100 - 20 else 100
    let issues1 : List String :=
      if length < 30 then ["Title too short (< 30 characters)"]
      else if 60 < length then ["Title too long (> 60 characters)"]
      else []
    let words := splitWS (lowerL title)
    let score2 : Int := if words.length < 3 then score1 - 10 else score1
    let issues2 : List String :=
      if words.length < 3 then issues1 ++ ["Title lacks descriptive keywords"]
      else issues1
    { score := max 0 score2, length := some length, issues := issues2,
      suggestions := some ["Include primary keyword in title",
        "Keep title between 30-60 characters"] }

/-- `BlogSEOAnalyzer.analyze_content`.  Keyword density is
`content.lower().count(primary) / word_count * 100`, modelled over `ℚ`
(Lean's total division makes this well defined even at `word_count = 0`;
the program only evaluates it when the keyword list is non-empty, which
forces `word_count ≥ 2` — that is claim C9). -/
def analyzeContent (content : List Char) : ContentResult :=
  let wc := wordCountOf content
  let score1 : Int :=
    if wc < 300 then 100 - 40 else if 2000 < wc then 100 - 10 else 100
  let issues1 : List String :=
    if wc < 300 then ["Content too short (< 300 words)"]
    else if 2000 < wc then ["Content very long (> 2000 words)"]
    else []
  let kws := keywordsOf content
  let score2 : Int :=
    match kws with
    | [] => score1
    | pk :: _ =>
      let density : ℚ := ((strCountL (lowerL content) pk.data : ℚ) / (wc : ℚ)) * 100
      if density < 1/2 then score1 - 15
      else if 3 < density then score1 - 10
      else score1
  let issues2 : List String :=
    match kws with
    | [] => issues1
    | pk :: _ =>
      let density : ℚ := ((strCountL (lowerL content) pk.data : ℚ) / (wc : ℚ)) * 100
      if density < 1/2 then issues1 ++ ["Low keyword density (< 0.5%)"]
      else if 3 < density then
        issues1 ++ ["High keyword density (> 3% - may be keyword stuffing)"]
      else issues1
  { score := max 0 score2, word_count := wc, keywords := kws.take 5,
    issues := issues2,
    suggestions := ["Aim for 300-1500 words", "Use primary keyword naturally",
      "Include related keywords"] }

/-- `BlogSEOAnalyzer.analyze_structure`. -/
def analyzeStructure (content : List Char) : StructResult :=
  let headings := lineCount subheadM content
  let lists := lineCount bulletM content
  let links := posCount linkCM content
  let score1 : Int := if headings < 2 then 100 - 20 else 100
  let score2 : Int := if lists < 1 then score1 - 10 else score1
  let score3 : Int := if links < 1 then score2 - 5 else score2
  let issues : List String :=
    (if headings < 2 then ["Few or no subheadings (H2-H6)"] else []) ++
    (if lists < 1 then ["No bullet lists found"] else []) ++
    (if links < 1 then ["No internal/external links"] else [])
  { score := max 0 score3, headings_count := headings, lists_count := lists,
    links_count := links, issues := issues,
    suggestions := ["Use H2/H3 headings to structure content",
      "Include bullet lists for readability",
      "Add relevant internal/external links"] }

/-! ## Meta description -/

/-- `re.sub(r'\s+', ' ', ·)`: every maximal whitespace run becomes one
space. -/
def collapseGo : Nat → List Char → List Char
  | 0, l => l
  | _ + 1, [] => []
  | fuel + 1, c :: cs =>
    if isWS c then ' ' :: collapseGo fuel (cs.dropWhile isWS)
    else c :: collapseGo fuel cs

def collapseL (l : List Char) : List Char := collapseGo l.length l

/-- `BlogSEOAnalyzer.generate_meta_description`. -/
def metaDescriptionL (title content : List Char) : List Char :=
  if title.isEmpty then
    "No title available for meta description generation".data
  else
    let cc := collapseL (trimL content)
    if 150 < cc.length then cc.take 147 ++ "...".data
    else cc

/-- The meta description as §4.5 of the specification words it: collapse
whitespace runs in the cleaned text to single spaces *and then* trim the
ends (the code strips first and collapses second); truncation as in the
code. -/
def specMetaDescriptionL (title content : List Char) : List Char :=
  if title.isEmpty then
    "No title available for meta description generation".data
  else
    let cc := trimL (collapseL content)
    if 150 < cc.length then cc.take 147 ++ "...".data
    else cc

/-! ## Aggregation, report, CLI -/

structure Analysis where
  title_analysis : TitleResult
  content_analysis : ContentResult
  structure_analysis : StructResult
  meta_description : String
  overall_score : ℚ
deriving DecidableEq

/-- Python `round(x, 1)` on the values this program produces (thirds of
integers — never a tie, so the tie-breaking rule is irrelevant). -/
def round1 (q : ℚ) : ℚ := ((round (q * 10) : ℤ) : ℚ) / 10

/-- `round (q * 10)` computed directly on the numerator and denominator
(`⌊q·10 + 1/2⌋ = (20·num + den) fdiv (2·den)`), so that the kernel can
evaluate it (the `Rat` field operations are `@[irreducible]`);
`round1Z_eq` proves it equal to `round (q * 10)`. -/
def round1Z (q : ℚ) : ℤ := (20 * q.num + (q.den : ℤ)) / ((2 * q.den : ℕ) : ℤ)

/-- The overall score exactly as the specification words it:
`round(mean(title, content, structure), 1)`. -/
def specOverallScore (t c s : Int) : ℚ := round1 (((t + c + s : Int) : ℚ) / 3)

/-- `BlogSEOAnalyzer.run_analysis` after a successful load of `raw`:
`overall_score = round(sum(scores) / len(scores), 1)` with the three
dimension scores; written with `mkRat`/`round1Z` (provably equal to
`round1 (mean)`, see `overall_eq_spec`) so concrete runs evaluate. -/
def runAnalysisText (raw : String) : Analysis :=
  let title := extractTitle raw.data
  let content := cleanMarkdownL raw.data
  let ta := analyzeTitle title
  let ca := analyzeContent content
  let sa := analyzeStructure content
  { title_analysis := ta, content_analysis := ca, structure_analysis := sa,
    meta_description := String.mk (metaDescriptionL title content),
    overall_score := mkRat (round1Z (mkRat (ta.score + ca.score + sa.score) 3)) 10 }

/-- `run_analysis` with the load step: the file system is abstracted as
`Option String` (`none` = `FileNotFoundError`); a failed load returns
`None`. -/
def runAnalysisOpt (fs : Option String) : Option Analysis :=
  fs.map runAnalysisText

def basenameL (p : List Char) : List Char :=
  (p.reverse.takeWhile (fun c => c != '/')).reverse

/-- `BlogSEOAnalyzer.print_report`, modelled as the list of printed lines.
Reading a dict key that is absent (`none`) raises `KeyError`, modelled by
the whole result being `none` (Python prints the earlier lines and then
crashes with a traceback; the partial output is abstracted away — the
exit code is what the claims are about). -/
def printReport (path : String) (title : List Char) (a : Analysis) :
    Option (List String) := do
  let sep := String.mk (List.replicate 50 '=')
  let head := [sep, "SEO Analysis Report for: " ++ String.mk (basenameL path.data),
    sep, "Overall SEO Score: " ++ toString a.overall_score ++ "/100",
    "Title Analysis (Score: " ++ toString a.title_analysis.score ++ "/100)"]
  let titleLines ←
    if title.isEmpty then pure ([] : List String)
    else do
      let n ← a.title_analysis.length
      pure ["   Title: " ++ String.mk title,
        "   Length: " ++ toString n ++ " characters"]
  let tIssues :=
    if a.title_analysis.issues.isEmpty then ([] : List String)
    else "   Issues:" :: a.title_analysis.issues.map (fun i => "   - " ++ i)
  let sugg ← a.title_analysis.suggestions
  let tSuggs :=
    if sugg.isEmpty then ([] : List String)
    else "   Suggestions:" :: sugg.map (fun s => "   - " ++ s)
  let cLines :=
    ["Content Analysis (Score: " ++ toString a.content_analysis.score ++ "/100)",
     "   Word Count: " ++ toString a.content_analysis.word_count] ++
    (if a.content_analysis.issues.isEmpty then []
     else "   Issues:" :: a.content_analysis.issues.map (fun i => "   - " ++ i)) ++
    ("   Suggestions:" :: a.content_analysis.suggestions.map (fun s => "   - " ++ s))
  let sLines :=
    ["Structure Analysis (Score: " ++ toString a.structure_analysis.score ++ "/100)",
     "   Headings: " ++ toString a.structure_analysis.headings_count,
     "   Lists: " ++ toString a.structure_analysis.lists_count,
     "   Links: " ++ toString a.structure_analysis.links_count] ++
    (if a.structure_analysis.issues.isEmpty then []
     else "   Issues:" :: a.structure_analysis.issues.map (fun i => "   - " ++ i)) ++
    ("   Suggestions:" :: a.structure_analysis.suggestions.map (fun s => "   - " ++ s))
  pure (head ++ titleLines ++ tIssues ++ tSuggs ++ cLines ++ sLines ++
    ["Suggested Meta Description:", "   " ++ a.meta_description, sep])

def notFoundMessage (path : String) : String :=
  "Error: File \x27" ++ path ++ "\x27 not found."

/-- "Text with no markdown syntax", decidably: no line start matches the
heading pattern, no link or image syntax matches anywhere, no backtick at
all (hence no code fence and no inline code), no bold or italic asterisk
emphasis matches, and no line start matches the bullet-marker pattern. -/
def noMarkdownB (l : List Char) : Bool :=
  !(hasLineB headerM true l) && !(hasMatchB linkM l) && !(hasMatchB imageM l) &&
  !(l.contains '`') && !(hasMatchB boldM l) && !(hasMatchB italicM l) &&
  !(hasLineB bulletM true l)

structure RunOutcome where
  output : List String
  exitCode : Nat
  reportPrinted : Bool
deriving DecidableEq

/-- `main` for a given path, with exactly one CLI argument.  A missing
file prints the error line from `load_content` and exits 1 without any
analysis; a successful load analyses and prints the report (exit 0), and
an uncaught `KeyError` inside `print_report` makes Python exit 1 (its
traceback, and the report lines printed before the crash, are abstracted
away). -/
def mainRun (path : String) (fs : Option String) : RunOutcome :=
  match runAnalysisOpt fs, fs with
  | none, _ =>
    { output := [notFoundMessage path], exitCode := 1, reportPrinted := false }
  | some a, some raw =>
    match printReport path (extractTitle raw.data) a with
    | some lines => { output := lines, exitCode := 0, reportPrinted := true }
    | none => { output := [], exitCode := 1, reportPrinted := false }
  | some _, none =>
    { output := [], exitCode := 1, reportPrinted := false }

/-! # Theorems -/

theorem round1Z_eq (q : ℚ) : round1Z q = round (q * 10) := by
  rw [round_eq]
  have hd : (q.den : ℚ) ≠ 0 := by exact_mod_cast q.den_nz
  have hq : (q.num : ℚ) = q * (q.den : ℚ) := (div_eq_iff hd).mp (Rat.num_div_den q)
  have h : q * 10 + 1 / 2 =
      (((20 * q.num + (q.den : ℤ)) : ℤ) : ℚ) / (((2 * q.den : ℕ)) : ℚ) := by
    push_cast
    field_simp
    rw [hq]
    ring
  rw [h, Rat.floor_intCast_div_natCast, round1Z]

/-- The `overall_score` stored by `runAnalysisText` is `round1` of the
mean of the three scores — the spec formula. -/
theorem overall_eq_spec (t c s : Int) :
    mkRat (round1Z (mkRat (t + c + s) 3)) 10 = specOverallScore t c s := by
  rw [specOverallScore, round1, Rat.mkRat_eq_div, round1Z_eq, Rat.mkRat_eq_div]
  norm_num


theorem mem_insertDesc {p q : String × Nat} :
    ∀ {l : List (String × Nat)}, q ∈ insertDesc p l ↔ q = p ∨ q ∈ l := by
  intro l
  induction l with
  | nil => simp [insertDesc]
  | cons r rs ih =>
    by_cases h : p.2 < r.2
    · rw [insertDesc, if_pos h]
      simp only [List.mem_cons, ih]
      tauto
    · rw [insertDesc, if_neg h]
      simp [List.mem_cons]

theorem mem_sortByCountDesc {q : String × Nat} :
    ∀ {l : List (String × Nat)}, q ∈ sortByCountDesc l ↔ q ∈ l := by
  intro l
  induction l with
  | nil => simp [sortByCountDesc]
  | cons r rs ih => simp [sortByCountDesc, mem_insertDesc, ih]

/-- Claim C9: a non-empty keyword list means the primary keyword occurs
more than once among the filtered tokens, hence `word_count ≥ 2 > 0` and
the density computation never divides by zero. -/
theorem c9_keywords_imply_words (content : List Char) (pk : String)
    (krest : List String) (h : keywordsOf content = pk :: krest) :
    1 < (filteredWords content).count pk ∧ 2 ≤ wordCountOf content ∧
      wordCountOf content ≠ 0 := by
  have hmem : pk ∈ keywordsOf content := by rw [h]; exact List.mem_cons_self _ _
  rw [keywordsOf] at hmem
  obtain ⟨p, hp, hpk⟩ := List.mem_filterMap.mp hmem
  have h1 : 1 < p.2 ∧ p.1 = pk := by
    by_cases hgt : 1 < p.2
    · refine ⟨hgt, ?_⟩
      simp [hgt] at hpk
      exact hpk
    · simp [hgt] at hpk
  have hsorted : p ∈ sortByCountDesc (wordFreq content) := List.take_subset _ _ hp
  have hfreq : p ∈ wordFreq content := mem_sortByCountDesc.mp hsorted
  rw [wordFreq] at hfreq
  obtain ⟨w, _, hw⟩ := List.mem_map.mp hfreq
  have hcnt : 1 < (filteredWords content).count pk := by
    have : p.2 = (filteredWords content).count p.1 := by rw [← hw]
    rw [h1.2] at this
    rw [← this]
    exact h1.1
  refine ⟨hcnt, ?_, ?_⟩
  · have hc2 : 2 ≤ (filteredWords content).count pk := hcnt
    have hlf : (filteredWords content).count pk ≤ (filteredWords content).length :=
      List.count_le_length _ _
    have hfl : (filteredWords content).length ≤ (contentWords content).length :=
      List.length_filter_le _ _
    rw [wordCountOf]
    omega
  · have hc2 : 2 ≤ (filteredWords content).count pk := hcnt
    have hlf : (filteredWords content).count pk ≤ (filteredWords content).length :=
      List.count_le_length _ _
    have hfl : (filteredWords content).length ≤ (contentWords content).length :=
      List.length_filter_le _ _
    rw [wordCountOf]
    omega

theorem c9_witness :
    keywordsOf "cats cats".data = ["cats"] ∧ 2 ≤ wordCountOf "cats cats".data :=
  ⟨by decide, (c9_keywords_imply_words "cats cats".data "cats" [] (by decide)).2.1⟩


/-- Claim C1 (code bug): on the empty file the post-load analysis itself
is fine (word_count 0, empty keyword list, density check skipped), but
`print_report` reads `title_analysis['suggestions']`, a key the no-title
branch of `analyze_title` never set — a `KeyError`, so the process exits
with code 1 and no complete report, contradicting the claimed exit code 0. -/
theorem c1_empty_file_code_bug :
    (runAnalysisText "").content_analysis.word_count = 0 ∧
    (runAnalysisText "").content_analysis.keywords = [] ∧
    (runAnalysisText "").content_analysis.issues = ["Content too short (< 300 words)"] ∧
    (runAnalysisText "").title_analysis.suggestions = none ∧
    printReport "empty.md" (extractTitle "".data) (runAnalysisText "") = none ∧
    (mainRun "empty.md" (some "")).exitCode = 1 ∧
    (mainRun "empty.md" (some "")).reportPrinted = false := by
  decide

/-- Claim C10: a path that does not resolve to a file prints exactly the
one-line not-found message, the load step fails, no analysis runs, no
report text is printed, and the exit code is 1. -/
theorem c10_missing_file (path : String) :
    (mainRun path none).output = ["Error: File \x27" ++ path ++ "\x27 not found."] ∧
    (mainRun path none).exitCode = 1 ∧
    (mainRun path none).reportPrinted = false ∧
    runAnalysisOpt none = none :=
  ⟨rfl, rfl, rfl, rfl⟩

/-- Claim C7: the worked scenario `# Hello\n\nShort text.`. -/
theorem c7_scenario :
    extractTitleS "# Hello\n\nShort text." = "Hello" ∧
    (runAnalysisText "# Hello\n\nShort text.").title_analysis.score = 60 ∧
    (runAnalysisText "# Hello\n\nShort text.").title_analysis.issues =
      ["Title too short (< 30 characters)", "Title lacks descriptive keywords"] ∧
    (runAnalysisText "# Hello\n\nShort text.").content_analysis.score = 60 ∧
    (runAnalysisText "# Hello\n\nShort text.").content_analysis.word_count = 2 ∧
    (runAnalysisText "# Hello\n\nShort text.").content_analysis.issues =
      ["Content too short (< 300 words)"] ∧
    (runAnalysisText "# Hello\n\nShort text.").structure_analysis.score = 65 ∧
    (runAnalysisText "# Hello\n\nShort text.").structure_analysis.issues =
      ["Few or no subheadings (H2-H6)", "No bullet lists found",
       "No internal/external links"] ∧
    (runAnalysisText "# Hello\n\nShort text.").overall_score = 61.7 := by
  have h617 : (61.7 : ℚ) = mkRat 617 10 := by norm_num [Rat.mkRat_eq_div]
  rw [h617]
  decide

/-- Claim C3, counterexample: cleaning `" ## x"` leaves `"## x"` (the
final `strip()` exposes the hashes at a line start), so the structure
analysis reports a non-zero headings count. -/
theorem c3_counterexample :
    (runAnalysisText " ## x").structure_analysis.headings_count ≠ 0 := by
  decide

/-- Claim C4, counterexample: `![alt](url)` with non-empty alt is eaten
by the *link* rule (which runs first), leaving `!alt` — the alt text and
an exclamation mark remain in the cleaned text. -/
theorem c4_counterexample :
    cleanMarkdownS "![alt](url)" = "!alt" ∧ cleanMarkdownS "![alt](url)" ≠ "" := by
  decide

/-- Claim C5, counterexample: the single issue of a title-less document
is the string `"No title found (first # heading)"`, not `"No title
found"`. -/
theorem c5_counterexample :
    (runAnalysisText "Short text.").title_analysis.issues ≠ ["No title found"] ∧
    (runAnalysisText "Short text.").title_analysis.issues =
      ["No title found (first # heading)"] := by
  decide

/-- Claim C8, counterexample: `"  # x"` contains no markdown syntax in
the claim's sense (in particular no heading line — the hashes are not at
a line start), yet the cleaner is not idempotent on it: the whitespace
trim exposes a heading line which a second cleaning pass deletes. -/
theorem c8_counterexample :
    noMarkdownB "  # x".data = true ∧
    cleanMarkdownS (cleanMarkdownS "  # x") ≠ cleanMarkdownS "  # x" := by
  decide

/-- Claim C5 (amended): if the multiline H1 search finds no match, the
title is absent and title analysis scores 0 with the single issue
`"No title found (first # heading)"` and no suggestions. -/
theorem c5_amended (raw : String) (h : titleSearchB true raw.data = none) :
    extractTitle raw.data = [] ∧
    (runAnalysisText raw).title_analysis =
      { score := 0, length := none,
        issues := ["No title found (first # heading)"], suggestions := none } := by
  have ht : extractTitle raw.data = [] := by rw [extractTitle, h]
  refine ⟨ht, ?_⟩
  show analyzeTitle (extractTitle raw.data) = _
  rw [ht]
  rfl

theorem c5_amended_witness :
    titleSearchB true "Short text.".data = none ∧
    (runAnalysisText "Short text.").title_analysis.score = 0 := by
  refine ⟨by decide, ?_⟩
  rw [(c5_amended "Short text." (by decide)).2]



theorem titleScore_bounds (title : List Char) :
    0 ≤ (analyzeTitle title).score ∧ (analyzeTitle title).score ≤ 100 := by
  simp only [analyzeTitle]
  split_ifs <;> simp

theorem contentScore_bounds (content : List Char) :
    0 ≤ (analyzeContent content).score ∧ (analyzeContent content).score ≤ 100 := by
  simp only [analyzeContent]
  rcases h : keywordsOf content with _ | ⟨pk, ks⟩ <;>
    simp only [h] <;> split_ifs <;> simp

theorem structScore_bounds (content : List Char) :
    0 ≤ (analyzeStructure content).score ∧ (analyzeStructure content).score ≤ 100 := by
  simp only [analyzeStructure]
  split_ifs <;> simp

theorem round1_bounds {q : ℚ} (h0 : 0 ≤ q) (h1 : q ≤ 100) :
    0 ≤ round1 q ∧ round1 q ≤ 100 := by
  have habs := abs_le.mp (abs_sub_round (q * 10))
  have hm0 : (0 : ℤ) ≤ round (q * 10) := by
    have hq : (-1 : ℚ) < ((round (q * 10) : ℤ) : ℚ) := by nlinarith [habs.1, habs.2]
    have : (-1 : ℤ) < round (q * 10) := by exact_mod_cast hq
    omega
  have hm1 : round (q * 10) ≤ 1000 := by
    have hq : ((round (q * 10) : ℤ) : ℚ) < 1001 := by nlinarith [habs.1, habs.2]
    have : round (q * 10) < (1001 : ℤ) := by exact_mod_cast hq
    omega
  rw [round1]
  constructor
  · apply div_nonneg _ (by norm_num)
    exact_mod_cast hm0
  · rw [div_le_iff₀ (by norm_num : (0:ℚ) < 10)]
    have : ((round (q * 10) : ℤ) : ℚ) ≤ ((1000 : ℤ) : ℚ) := by exact_mod_cast hm1
    push_cast at this ⊢
    linarith



/-- Claim C2: every dimension score lies in `[0, 100]`, the overall score
equals `round(mean(title, content, structure), 1)` — the unweighted mean
of exactly the three dimension scores rounded to one decimal, with no
further clamping — and therefore the overall score also lies in
`[0, 100]`. -/
theorem c2_scores_and_overall (raw : String) :
    (0 ≤ (runAnalysisText raw).title_analysis.score ∧
      (runAnalysisText raw).title_analysis.score ≤ 100) ∧
    (0 ≤ (runAnalysisText raw).content_analysis.score ∧
      (runAnalysisText raw).content_analysis.score ≤ 100) ∧
    (0 ≤ (runAnalysisText raw).structure_analysis.score ∧
      (runAnalysisText raw).structure_analysis.score ≤ 100) ∧
    (runAnalysisText raw).overall_score =
      specOverallScore (runAnalysisText raw).title_analysis.score
        (runAnalysisText raw).content_analysis.score
        (runAnalysisText raw).structure_analysis.score ∧
    (0 ≤ (runAnalysisText raw).overall_score ∧
      (runAnalysisText raw).overall_score ≤ 100) := by
  have ht := titleScore_bounds (extractTitle raw.data)
  have hc := contentScore_bounds (cleanMarkdownL raw.data)
  have hs := structScore_bounds (cleanMarkdownL raw.data)
  have heq : (runAnalysisText raw).overall_score =
      specOverallScore (analyzeTitle (extractTitle raw.data)).score
        (analyzeContent (cleanMarkdownL raw.data)).score
        (analyzeStructure (cleanMarkdownL raw.data)).score :=
    overall_eq_spec _ _ _
  refine ⟨ht, hc, hs, heq, ?_⟩
  rw [heq, specOverallScore]
  apply round1_bounds
  · apply div_nonneg _ (by norm_num : (0:ℚ) ≤ 3)
    have h1 : (0:ℚ) ≤ ((analyzeTitle (extractTitle raw.data)).score : ℚ) := by
      exact_mod_cast ht.1
    have h2 : (0:ℚ) ≤ ((analyzeContent (cleanMarkdownL raw.data)).score : ℚ) := by
      exact_mod_cast hc.1
    have h3 : (0:ℚ) ≤ ((analyzeStructure (cleanMarkdownL raw.data)).score : ℚ) := by
      exact_mod_cast hs.1
    push_cast
    linarith
  · rw [div_le_iff₀ (by norm_num : (0:ℚ) < 3)]
    have h1 : ((analyzeTitle (extractTitle raw.data)).score : ℚ) ≤ 100 := by
      exact_mod_cast ht.2
    have h2 : ((analyzeContent (cleanMarkdownL raw.data)).score : ℚ) ≤ 100 := by
      exact_mod_cast hc.2
    have h3 : ((analyzeStructure (cleanMarkdownL raw.data)).score : ℚ) ≤ 100 := by
      exact_mod_cast hs.2
    push_cast
    linarith



theorem collapseGo_irrel :
    ∀ (f1 f2 : Nat) (l : List Char), l.length ≤ f1 → l.length ≤ f2 →
      collapseGo f1 l = collapseGo f2 l := by
  intro f1
  induction f1 with
  | zero =>
    intro f2 l h1 _
    have : l = [] := List.length_eq_zero.mp (Nat.le_zero.mp h1)
    subst this
    cases f2 <;> rfl
  | succ f1 ih =>
    intro f2 l h1 h2
    cases l with
    | nil => cases f2 <;> rfl
    | cons c cs =>
      cases f2 with
      | zero => exact absurd h2 (by simp)
      | succ f2 =>
        show collapseGo (f1 + 1) (c :: cs) = collapseGo (f2 + 1) (c :: cs)
        simp only [collapseGo]
        split_ifs with hws
        · have hd : (cs.dropWhile isWS).length ≤ cs.length :=
            (List.dropWhile_suffix isWS).length_le
          have hcs : cs.length ≤ f1 := by simpa using h1
          have hcs2 : cs.length ≤ f2 := by simpa using h2
          rw [ih f2 (cs.dropWhile isWS) (hd.trans hcs) (hd.trans hcs2)]
        · have hcs : cs.length ≤ f1 := by simpa using h1
          have hcs2 : cs.length ≤ f2 := by simpa using h2
          rw [ih f2 cs hcs hcs2]

theorem collapseL_nil : collapseL [] = [] := rfl

theorem collapseL_cons (c : Char) (cs : List Char) :
    collapseL (c :: cs) =
      if isWS c then ' ' :: collapseL (cs.dropWhile isWS)
      else c :: collapseL cs := by
  show collapseGo (cs.length + 1) (c :: cs) = _
  simp only [collapseGo]
  split_ifs with hws
  · rw [collapseGo_irrel cs.length (cs.dropWhile isWS).length (cs.dropWhile isWS)
      (List.dropWhile_suffix isWS).length_le le_rfl]
    rfl
  · rfl

theorem dropWhile_head_not (p : Char → Bool) (l : List Char) :
    l.dropWhile p = [] ∨
      ∃ d ds, l.dropWhile p = d :: ds ∧ p d = false := by
  induction l with
  | nil => left; rfl
  | cons c cs ih =>
    by_cases h : p c
    · rw [List.dropWhile_cons, if_pos h]
      exact ih
    · right
      exact ⟨c, cs, by rw [List.dropWhile_cons, if_neg h], by simp [h]⟩

theorem getLast?_any_of_all (p : Char → Bool) :
    ∀ (l : List Char), (∀ x ∈ l, p x = true) → l ≠ [] →
      l.getLast?.any p = true := by
  intro l
  induction l with
  | nil => intro _ h; exact absurd rfl h
  | cons a as ih =>
    intro hall _
    cases as with
    | nil => simpa using hall a (by simp)
    | cons b bs =>
      rw [List.getLast?_cons_cons]
      exact ih (fun x hx => hall x (by simp [hx])) (by simp)

/-- Appending one character to the text: a whitespace character merges
into a trailing whitespace run or contributes one space; any other
character is appended as is. -/
theorem collapse_append_one :
    ∀ (n : Nat) (xs : List Char) (c : Char), xs.length ≤ n →
      collapseL (xs ++ [c]) =
        if isWS c then
          (if xs.getLast?.any isWS then collapseL xs else collapseL xs ++ [' '])
        else collapseL xs ++ [c] := by
  intro n
  induction n with
  | zero =>
    intro xs c h
    have : xs = [] := List.length_eq_zero.mp (Nat.le_zero.mp h)
    subst this
    rw [List.nil_append, collapseL_cons, collapseL_nil]
    by_cases hc : isWS c <;> simp [hc, collapseL_nil]
  | succ n ih =>
    intro xs c h
    cases xs with
    | nil =>
      rw [List.nil_append, collapseL_cons, collapseL_nil]
      by_cases hc : isWS c <;> simp [hc, collapseL_nil]
    | cons a as =>
      have has : as.length ≤ n := by simpa using h
      by_cases ha : isWS a
      · -- leading whitespace: collapse folds the whole leading run
        rw [List.cons_append, collapseL_cons, if_pos ha, List.dropWhile_append]
        rcases dropWhile_head_not isWS as with hnil | ⟨d, ds, hds, hd⟩
        · -- as is all whitespace
          have hall : ∀ x ∈ as, isWS x = true := List.dropWhile_eq_nil_iff.mp hnil
          have hlast : (a :: as).getLast?.any isWS = true := by
            apply getLast?_any_of_all
            · intro x hx
              rcases List.mem_cons.mp hx with rfl | hx
              · exact ha
              · exact hall x hx
            · simp
          rw [hnil]
          simp only [List.isEmpty_nil, if_pos]
          rw [collapseL_cons, if_pos ha, hnil, collapseL_nil]
          by_cases hc : isWS c
          · rw [List.dropWhile_cons, if_pos hc]
            simp [hlast, hc, collapseL_nil]
          · rw [List.dropWhile_cons, if_neg hc]
            simp [hc, collapseL_cons, collapseL_nil, hlast]
        · -- the leading run ends inside as
          have hne : (as.dropWhile isWS).isEmpty = false := by
            rw [hds]; rfl
          rw [hne]
          simp only [Bool.false_eq_true, if_false]
          rw [hds]
          have hlen : (d :: ds).length ≤ n := by
            rw [← hds]
            exact (List.dropWhile_suffix isWS).length_le.trans has
          rw [ih (d :: ds) c hlen]
          have hcoll : collapseL (a :: as) = ' ' :: collapseL (d :: ds) := by
            rw [collapseL_cons, if_pos ha, hds]
          have hlasteq : (a :: as).getLast? = (d :: ds).getLast? := by
            obtain ⟨pre, hpre⟩ := List.dropWhile_suffix (l := as) isWS
            rw [hds] at hpre
            have : a :: as = (a :: pre) ++ (d :: ds) := by
              rw [← hpre]; rfl
            rw [this, List.getLast?_append]
            rfl
          rw [hlasteq, hcoll]
          by_cases hc : isWS c
          · simp only [hc, if_true]
            by_cases hl : ((d :: ds).getLast?.any isWS) = true
            · simp [hl]
            · simp [hl]
          · simp [hc]
      · -- non-whitespace head: it is copied and the tail recurses
        rw [List.cons_append, collapseL_cons, if_neg ha, ih as c has,
          collapseL_cons (c := a), if_neg ha]
        cases as with
        | nil =>
          by_cases hc : isWS c <;>
            simp [hc, ha, collapseL_nil, collapseL_cons, List.getLast?]
        | cons b bs =>
          rw [List.getLast?_cons_cons]
          by_cases hc : isWS c
          · simp only [hc, if_true]
            by_cases hl : ((b :: bs).getLast?.any isWS) = true <;> simp [hl]
          · simp [hc]

theorem collapse_reverse (l : List Char) :
    collapseL l.reverse = (collapseL l).reverse := by
  induction l with
  | nil => rfl
  | cons c cs ih =>
    rw [List.reverse_cons, collapse_append_one cs.reverse.length cs.reverse c le_rfl, ih]
    rw [List.getLast?_reverse]
    rw [collapseL_cons]
    by_cases hc : isWS c
    · simp only [hc, if_true, List.reverse_cons]
      cases cs with
      | nil => simp [collapseL_nil]
      | cons d ds =>
        by_cases hd : isWS d
        · have : (d :: ds).head?.any isWS = true := by simp [hd]
          rw [this]
          simp only [if_true]
          rw [collapseL_cons, if_pos hd, List.dropWhile_cons, if_pos hd, List.reverse_cons]
        · have : (d :: ds).head?.any isWS = false := by simp [hd]
          rw [this]
          simp only [Bool.false_eq_true, if_false]
          rw [List.dropWhile_cons, if_neg hd]
    · simp [hc]

theorem collapse_dropLeading (l : List Char) :
    collapseL (l.dropWhile isWS) = (collapseL l).dropWhile isWS := by
  cases l with
  | nil => rfl
  | cons c cs =>
    by_cases hc : isWS c
    · rw [List.dropWhile_cons, if_pos hc, collapseL_cons, if_pos hc,
        List.dropWhile_cons, if_pos (by simp [isWS] : isWS ' ' = true)]
      rcases dropWhile_head_not isWS cs with hnil | ⟨d, ds, hds, hd⟩
      · rw [hnil, collapseL_nil]
        rfl
      · rw [hds, collapseL_cons, if_neg (by simp [hd]), List.dropWhile_cons,
          if_neg (by simp [hd])]
    · rw [List.dropWhile_cons, if_neg hc, collapseL_cons, if_neg hc,
        List.dropWhile_cons, if_neg hc]

theorem collapse_dropTrail (l : List Char) :
    collapseL (dropTrail l) = dropTrail (collapseL l) := by
  rw [dropTrail, dropTrail, ← collapse_reverse, ← collapse_dropLeading,
    collapse_reverse]

theorem collapse_trim (l : List Char) :
    collapseL (trimL l) = trimL (collapseL l) := by
  rw [trimL, trimL, collapse_dropTrail, collapse_dropLeading]


theorem metaDescription_eq_spec (title content : List Char) :
    metaDescriptionL title content = specMetaDescriptionL title content := by
  rw [metaDescriptionL, specMetaDescriptionL, collapse_trim]

theorem meta_truncated_len (title content : List Char)
    (h : title.isEmpty = false)
    (hlen : 150 < (collapseL (trimL content)).length) :
    (metaDescriptionL title content).length = 150 := by
  rw [metaDescriptionL, if_neg (by simp [h]), if_pos hlen]
  rw [List.length_append, List.length_take]
  have h3 : ("...".data).length = 3 := rfl
  omega

/-- Claim C6: with a title present the meta description is the cleaned
text with whitespace runs collapsed to single spaces and ends trimmed
when that has length ≤ 150, and otherwise its first 147 characters
followed by `"..."` for a total length of 150; with the title absent it
is the fixed no-title string with no truncation logic
(`specMetaDescriptionL` spells out §4.5 of the specification, including
the literal fallback string). -/
theorem c6_meta_description (raw : String) :
    (runAnalysisText raw).meta_description =
      String.mk (specMetaDescriptionL (extractTitle raw.data)
        (cleanMarkdownL raw.data)) ∧
    ((extractTitle raw.data).isEmpty = false →
      150 < (trimL (collapseL (cleanMarkdownL raw.data))).length →
      (runAnalysisText raw).meta_description.length = 150) := by
  constructor
  · show String.mk (metaDescriptionL _ _) = _
    rw [metaDescription_eq_spec]
  · intro ht hlen
    show (String.mk (metaDescriptionL (extractTitle raw.data)
      (cleanMarkdownL raw.data))).length = 150
    have : (String.mk (metaDescriptionL (extractTitle raw.data)
        (cleanMarkdownL raw.data))).length =
        (metaDescriptionL (extractTitle raw.data)
          (cleanMarkdownL raw.data)).length := rfl
    rw [this]
    apply meta_truncated_len _ _ ht
    rw [collapse_trim]
    exact hlen

set_option maxRecDepth 40000 in
theorem c6_witness :
    ((extractTitle ("# T\nabcdefghij abcdefghij abcdefghij abcdefghij abcdefghij abcdefghij abcdefghij abcdefghij abcdefghij abcdefghij abcdefghij abcdefghij abcdefghij abcdefghij abcdefghij abcdefghij" : String).data).isEmpty = false ∧
      150 < (trimL (collapseL (cleanMarkdownL ("# T\nabcdefghij abcdefghij abcdefghij abcdefghij abcdefghij abcdefghij abcdefghij abcdefghij abcdefghij abcdefghij abcdefghij abcdefghij abcdefghij abcdefghij abcdefghij abcdefghij" : String).data))).length) ∧
    (runAnalysisText "# T\nabcdefghij abcdefghij abcdefghij abcdefghij abcdefghij abcdefghij abcdefghij abcdefghij abcdefghij abcdefghij abcdefghij abcdefghij abcdefghij abcdefghij abcdefghij abcdefghij").meta_description.length = 150 := by
  refine ⟨⟨by decide, by decide⟩, ?_⟩
  exact (c6_meta_description "# T\nabcdefghij abcdefghij abcdefghij abcdefghij abcdefghij abcdefghij abcdefghij abcdefghij abcdefghij abcdefghij abcdefghij abcdefghij abcdefghij abcdefghij abcdefghij abcdefghij").2 (by decide) (by decide)



theorem subScan_nil (m : List Char → Option (List Char × List Char)) :
    subScan m [] = [] := rfl

theorem subScan_id (m : List Char → Option (List Char × List Char)) :
    ∀ (fuel : Nat) (l : List Char), l.length ≤ fuel →
      hasMatchB m l = false → subScanGo m fuel l = l := by
  intro fuel
  induction fuel with
  | zero => intro l _ _; rfl
  | succ fuel ih =>
    intro l hlen h
    cases l with
    | nil => rfl
    | cons c cs =>
      rw [hasMatchB, Bool.or_eq_false_iff] at h
      have hm : m (c :: cs) = none := Option.not_isSome_iff_eq_none.mp (by simp [h.1])
      show (match m (c :: cs) with
        | some (rep, rest) => rep ++ subScanGo m fuel rest
        | none => c :: subScanGo m fuel cs) = c :: cs
      rw [hm]
      rw [ih cs (by simpa using hlen) h.2]

theorem lineScanGo_id (m : List Char → Option (List Char × Bool)) :
    ∀ (fuel : Nat) (atStart : Bool) (l : List Char), l.length ≤ fuel →
      hasLineB m atStart l = false → lineScanGo m fuel atStart l = l := by
  intro fuel
  induction fuel with
  | zero => intro _ l _ _; rfl
  | succ fuel ih =>
    intro atStart l hlen h
    cases l with
    | nil => rfl
    | cons c cs =>
      rw [hasLineB, Bool.or_eq_false_iff] at h
      have hnone : (if atStart then m (c :: cs) else none) = none := by
        cases atStart with
        | false => rfl
        | true =>
          simp only [if_true]
          have hs : (m (c :: cs)).isSome = false := by simpa using h.1
          exact Option.not_isSome_iff_eq_none.mp (by simp [hs])
      show (match (if atStart then m (c :: cs) else none) with
        | some (rest, flag) => lineScanGo m fuel flag rest
        | none => c :: lineScanGo m fuel (c == '\n') cs) = c :: cs
      rw [hnone]
      rw [ih (c == '\n') cs (by simpa using hlen) h.2]

theorem fenceM_none_of_head {c : Char} {cs : List Char} (h : c ≠ '`') :
    fenceM (c :: cs) = none := by
  unfold fenceM
  split
  · rename_i heq
    injection heq with h1 _
    exact absurd h1 h
  · rfl

theorem codeM_none_of_head {c : Char} {cs : List Char} (h : c ≠ '`') :
    codeM (c :: cs) = none := by
  unfold codeM
  split
  · rename_i heq
    injection heq with h1 _
    exact absurd h1 h
  · rfl

theorem hasMatchB_false_of_trigger (m : List Char → Option (List Char × List Char))
    (t : Char) (hm : ∀ c cs, c ≠ t → m (c :: cs) = none) :
    ∀ (l : List Char), t ∉ l → hasMatchB m l = false := by
  intro l h
  induction l with
  | nil => rfl
  | cons c cs ih =>
    rw [hasMatchB, hm c cs (fun heq => h (heq ▸ List.mem_cons_self c cs))]
    simpa using ih (fun hmem => h (List.mem_cons_of_mem _ hmem))

theorem dropL_idem (l : List Char) :
    (l.dropWhile isWS).dropWhile isWS = l.dropWhile isWS := by
  rcases dropWhile_head_not isWS l with hnil | ⟨d, ds, hds, hd⟩
  · rw [hnil]; rfl
  · rw [hds, List.dropWhile_cons, if_neg (by simp [hd])]

theorem dropTrail_idem (l : List Char) :
    dropTrail (dropTrail l) = dropTrail l := by
  rw [dropTrail, dropTrail, List.reverse_reverse, dropL_idem]

theorem dropTrail_prefix_self (l : List Char) : dropTrail l <+: l := by
  obtain ⟨pre, hpre⟩ := List.dropWhile_suffix (l := l.reverse) isWS
  refine ⟨pre.reverse, ?_⟩
  rw [dropTrail, ← List.reverse_append, hpre, List.reverse_reverse]

theorem dropL_eq_self_of_prefix {y x : List Char} (hp : y <+: x)
    (hx : x.dropWhile isWS = x) : y.dropWhile isWS = y := by
  cases y with
  | nil => rfl
  | cons c cs =>
    obtain ⟨post, hpost⟩ := hp
    have hx' : x = c :: (cs ++ post) := by rw [← hpost]; rfl
    have hc : isWS c = false := by
      by_contra hcc
      have hc : isWS c = true := by
        cases hws : isWS c
        · exact absurd hws hcc
        · rfl
      rw [hx', List.dropWhile_cons, if_pos hc] at hx
      have hle : ((cs ++ post).dropWhile isWS).length ≤ (cs ++ post).length :=
        (List.dropWhile_suffix isWS).length_le
      rw [hx] at hle
      simp at hle
    rw [List.dropWhile_cons, if_neg (by simp [hc])]

theorem trim_idem (l : List Char) : trimL (trimL l) = trimL l := by
  rw [trimL, trimL]
  have h1 : (dropTrail (l.dropWhile isWS)).dropWhile isWS =
      dropTrail (l.dropWhile isWS) :=
    dropL_eq_self_of_prefix (dropTrail_prefix_self _) (dropL_idem l)
  rw [h1, dropTrail_idem]

/-- With no markdown syntax present every cleaning pass is the identity,
so `_clean_markdown` only trims the surrounding whitespace. -/
theorem cleanMarkdown_eq_trim {l : List Char} (h : noMarkdownB l = true) :
    cleanMarkdownL l = trimL l := by
  rw [noMarkdownB] at h
  simp only [Bool.and_eq_true, Bool.not_eq_true'] at h
  obtain ⟨⟨⟨⟨⟨⟨hhead, hlink⟩, himg⟩, htick⟩, hbold⟩, hital⟩, hbull⟩ := h
  have hmem : '`' ∉ l := by
    intro hmem
    rw [List.contains_eq_any_beq] at htick
    have : l.any (fun c => '`' == c) = true := List.any_of_mem hmem (by simp)
    rw [this] at htick
    simp at htick
  have hfence : hasMatchB fenceM l = false :=
    hasMatchB_false_of_trigger fenceM '`' (fun _ _ hc => fenceM_none_of_head hc) l hmem
  have hcode : hasMatchB codeM l = false :=
    hasMatchB_false_of_trigger codeM '`' (fun _ _ hc => codeM_none_of_head hc) l hmem
  rw [cleanMarkdownL, stripHeadersL, lineScan,
    lineScanGo_id headerM l.length true l le_rfl hhead]
  rw [linkSubL, subScan, subScan_id linkM l.length l le_rfl hlink]
  rw [imageSubL, subScan, subScan_id imageM l.length l le_rfl himg]
  rw [fenceSubL, subScan, subScan_id fenceM l.length l le_rfl hfence]
  rw [codeSubL, subScan, subScan_id codeM l.length l le_rfl hcode]
  rw [boldSubL, subScan, subScan_id boldM l.length l le_rfl hbold]
  rw [italicSubL, subScan, subScan_id italicM l.length l le_rfl hital]
  rw [bulletSubL, lineScan, lineScanGo_id bulletM l.length true l le_rfl hbull]

/-- Claim C8 (amended): on text with no markdown syntax the cleaner only
trims the surrounding whitespace; it is moreover idempotent on such text
provided the trimmed text still has no markdown syntax (trimming leading
whitespace can expose a heading line, see the counterexample). -/
theorem c8_amended (l : List Char) (h : noMarkdownB l = true) :
    cleanMarkdownL l = trimL l ∧
    (noMarkdownB (trimL l) = true →
      cleanMarkdownL (cleanMarkdownL l) = cleanMarkdownL l) := by
  refine ⟨cleanMarkdown_eq_trim h, fun h2 => ?_⟩
  rw [cleanMarkdown_eq_trim h, cleanMarkdown_eq_trim h2, trim_idem]

theorem c8_amended_witness :
    noMarkdownB "hello world".data = true ∧
    noMarkdownB (trimL "hello world".data) = true ∧
    cleanMarkdownL "hello world".data = trimL "hello world".data ∧
    cleanMarkdownL (cleanMarkdownL "hello world".data) =
      cleanMarkdownL "hello world".data := by
  refine ⟨by decide, by decide, ?_, ?_⟩
  · exact (c8_amended "hello world".data (by decide)).1
  · exact (c8_amended "hello world".data (by decide)).2 (by decide)



theorem takeWhile_length_le (p : Char → Bool) (l : List Char) :
    (l.takeWhile p).length ≤ l.length := by
  conv_rhs => rw [← List.takeWhile_append_dropWhile p l]
  rw [List.length_append]
  omega

theorem takeWhile_hash_firstLine (l : List Char) :
    l.takeWhile (· == '#') =
      (l.takeWhile (fun c => c != '\n')).takeWhile (· == '#') := by
  induction l with
  | nil => rfl
  | cons c cs ih =>
    rw [List.takeWhile_cons (p := fun c => c != '\n')]
    by_cases hnl : c = '\n'
    · subst hnl
      rw [if_neg (by decide)]
      rw [List.takeWhile_cons, if_neg (by decide)]
      rfl
    · rw [if_pos (by simp [hnl])]
      rw [List.takeWhile_cons, List.takeWhile_cons]
      by_cases hc : (c == '#') = true
      · rw [if_pos hc, if_pos hc, ih]
      · rw [if_neg hc, if_neg hc]

/-- `headerOk` only inspects the first line and the character class of
what immediately follows it. -/
theorem headerOk_congr {l1 l2 : List Char}
    (h1 : l1.takeWhile (fun c => c != '\n') = l2.takeWhile (fun c => c != '\n'))
    (h2 : (l1.dropWhile (fun c => c != '\n')).head? =
          (l2.dropWhile (fun c => c != '\n')).head?) :
    headerOk l1 = headerOk l2 := by
  have haux : ∀ l : List Char,
      (l.drop ((l.takeWhile (· == '#')).length)).head? =
        ((l.takeWhile (fun c => c != '\n')).drop
            ((l.takeWhile (· == '#')).length)).head?.or
          ((l.dropWhile (fun c => c != '\n')).head?) := by
    intro l
    have hn : ((l.takeWhile (· == '#')).length) ≤
        (l.takeWhile (fun c => c != '\n')).length := by
      rw [takeWhile_hash_firstLine l]
      exact takeWhile_length_le _ _
    have hsplit : l = l.takeWhile (fun c => c != '\n') ++
        l.dropWhile (fun c => c != '\n') :=
      (List.takeWhile_append_dropWhile _ _).symm
    generalize hN : (l.takeWhile (· == '#')).length = N at hn ⊢
    conv_lhs => rw [hsplit]
    rw [List.drop_append_of_le_length hn, List.head?_append]
  rw [headerOk, headerOk, haux l1, haux l2,
    takeWhile_hash_firstLine l1, takeWhile_hash_firstLine l2, h1, h2]

theorem headerOk_of_subheadPre {l : List Char} (h : subheadPre l = true) :
    headerOk l = true := by
  rw [subheadPre, Bool.and_eq_true, Bool.and_eq_true] at h
  obtain ⟨⟨h2, h6⟩, hws⟩ := h
  rw [headerOk, Bool.and_eq_true, Bool.and_eq_true]
  refine ⟨⟨?_, h6⟩, hws⟩
  simp only [decide_eq_true_eq] at h2 ⊢
  omega

theorem subheadM_none_of_not_pre {l : List Char} (h : subheadPre l = false) :
    subheadM l = none := by
  rw [subheadM]
  simp [h]

theorem subheadM_none_of_headerOk {l : List Char} (h : headerOk l = false) :
    subheadM l = none := by
  apply subheadM_none_of_not_pre
  cases hp : subheadPre l
  · rfl
  · rw [headerOk_of_subheadPre hp] at h
    exact absurd h (by simp)

theorem subheadM_none_of_head {l : List Char} (h : l.head? ≠ some '#') :
    subheadM l = none := by
  apply subheadM_none_of_not_pre
  rw [subheadPre]
  cases l with
  | nil => rfl
  | cons c cs =>
    have hc : (c == '#') = false := by
      simp only [List.head?_cons, ne_eq, Option.some.injEq] at h
      simp [h]
    rw [List.takeWhile_cons, if_neg (by simp [hc])]
    rfl

theorem headerM_none_iff {l : List Char} : headerM l = none ↔ headerOk l = false := by
  rw [headerM]
  cases hh : headerOk l <;> simp [hh]

theorem headerM_consumes {l r : List Char} {b : Bool}
    (h : headerM l = some (r, b)) : r.length < l.length := by
  rw [headerM] at h
  by_cases hok : headerOk l = true
  · rw [if_pos hok] at h
    have hr : r = ((l.drop ((l.takeWhile (· == '#')).length)).dropWhile
        isWS).dropWhile (fun c => c != '\n') := by
      injection h with h1
      injection h1 with h2 _
      exact h2.symm
    rw [headerOk, Bool.and_eq_true, Bool.and_eq_true] at hok
    have h1 : 1 ≤ (l.takeWhile (· == '#')).length := by
      have := hok.1.1
      simpa using this
    have hlen1 : (((l.drop ((l.takeWhile (· == '#')).length)).dropWhile
        isWS).dropWhile (fun c => c != '\n')).length ≤
        (l.drop ((l.takeWhile (· == '#')).length)).length :=
      ((List.dropWhile_suffix _).length_le).trans ((List.dropWhile_suffix _).length_le)
    have hlen2 : (l.drop ((l.takeWhile (· == '#')).length)).length =
        l.length - (l.takeWhile (· == '#')).length := List.length_drop _ _
    have hle : (l.takeWhile (· == '#')).length ≤ l.length := takeWhile_length_le _ _
    rw [hr]
    omega
  · rw [if_neg hok] at h
    exact absurd h (by simp)

theorem headerM_shape {l r : List Char} {b : Bool}
    (h : headerM l = some (r, b)) :
    (r = [] ∨ ∃ u, r = '\n' :: u) ∧ b = false := by
  rw [headerM] at h
  by_cases hok : headerOk l = true
  · rw [if_pos hok] at h
    have hr : r = ((l.drop ((l.takeWhile (· == '#')).length)).dropWhile
        isWS).dropWhile (fun c => c != '\n') ∧ b = false := by
      injection h with h1
      injection h1 with h2 h3
      exact ⟨h2.symm, h3.symm⟩
    refine ⟨?_, hr.2⟩
    rw [hr.1]
    rcases dropWhile_head_not (fun c => c != '\n')
        ((l.drop ((l.takeWhile (· == '#')).length)).dropWhile isWS) with hnil | ⟨d, ds, hds, hd⟩
    · left; exact hnil
    · right
      have : d = '\n' := by simpa using hd
      exact ⟨ds, by rw [hds, this]⟩
  · rw [if_neg hok] at h
    exact absurd h (by simp)

theorem lineScanGo_irrel (m : List Char → Option (List Char × Bool))
    (hm : ∀ l r b, m l = some (r, b) → r.length < l.length) :
    ∀ (f1 f2 : Nat) (atStart : Bool) (l : List Char),
      l.length ≤ f1 → l.length ≤ f2 →
      lineScanGo m f1 atStart l = lineScanGo m f2 atStart l := by
  intro f1
  induction f1 with
  | zero =>
    intro f2 atStart l h1 _
    have : l = [] := List.length_eq_zero.mp (Nat.le_zero.mp h1)
    subst this
    cases f2 <;> rfl
  | succ f1 ih =>
    intro f2 atStart l h1 h2
    cases l with
    | nil => cases f2 <;> rfl
    | cons c cs =>
      cases f2 with
      | zero => exact absurd h2 (by simp)
      | succ f2 =>
        show (match (if atStart then m (c :: cs) else none) with
          | some (rest, flag) => lineScanGo m f1 flag rest
          | none => c :: lineScanGo m f1 (c == '\n') cs) =
          (match (if atStart then m (c :: cs) else none) with
          | some (rest, flag) => lineScanGo m f2 flag rest
          | none => c :: lineScanGo m f2 (c == '\n') cs)
        rcases hmatch : (if atStart then m (c :: cs) else none) with _ | ⟨r, b⟩
        · show c :: lineScanGo m f1 (c == '\n') cs = c :: lineScanGo m f2 (c == '\n') cs
          rw [ih f2 (c == '\n') cs (by simpa using h1) (by simpa using h2)]
        · have hsome : m (c :: cs) = some (r, b) := by
            cases atStart with
            | true => simpa using hmatch
            | false => simp at hmatch
          have hlt : r.length < cs.length + 1 := by simpa using hm _ _ _ hsome
          have hl1 : r.length ≤ f1 := by
            have h1h : cs.length + 1 ≤ f1 + 1 := by simpa using h1
            omega
          have hl2 : r.length ≤ f2 := by
            have h2h : cs.length + 1 ≤ f2 + 1 := by simpa using h2
            omega
          show lineScanGo m f1 b r = lineScanGo m f2 b r
          exact ih f2 b r hl1 hl2

theorem hasLineB_append_line (m : List Char → Option (List Char × Bool)) :
    ∀ (A r : List Char), (∀ x ∈ A, (x != '\n') = true) →
      hasLineB m false (A ++ r) = hasLineB m false r := by
  intro A
  induction A with
  | nil => intro r _; rfl
  | cons x A ih =>
    intro r hA
    rw [List.cons_append, hasLineB]
    have hx : (x == '\n') = false := by
      have := hA x (by simp)
      simpa using this
    rw [hx]
    simp only [Bool.false_and, Bool.false_or]
    exact ih r (fun y hy => hA y (by simp [hy]))

theorem lineCountGo_zero (m : List Char → Option (List Char × Bool)) :
    ∀ (fuel : Nat) (atStart : Bool) (l : List Char),
      hasLineB m atStart l = false → lineCountGo m fuel atStart l = 0 := by
  intro fuel
  induction fuel with
  | zero => intro _ _ _; rfl
  | succ fuel ih =>
    intro atStart l h
    cases l with
    | nil => rfl
    | cons c cs =>
      rw [hasLineB, Bool.or_eq_false_iff] at h
      have hnone : (if atStart then m (c :: cs) else none) = none := by
        cases atStart with
        | false => rfl
        | true =>
          simp only [if_true]
          have hs : (m (c :: cs)).isSome = false := by simpa using h.1
          exact Option.not_isSome_iff_eq_none.mp (by simp [hs])
      show (match (if atStart then m (c :: cs) else none) with
        | some (rest, flag) => 1 + lineCountGo m fuel flag rest
        | none => lineCountGo m fuel (c == '\n') cs) = 0
      rw [hnone]
      exact ih (c == '\n') cs h.2

theorem lineScanGo_false_noNL (m : List Char → Option (List Char × Bool)) :
    ∀ (fuel : Nat) (l : List Char), l.length ≤ fuel →
      l.dropWhile (fun c => c != '\n') = [] →
      lineScanGo m fuel false l = l := by
  intro fuel
  induction fuel with
  | zero =>
    intro l h _
    have : l = [] := List.length_eq_zero.mp (Nat.le_zero.mp h)
    subst this; rfl
  | succ fuel ih =>
    intro l hlen h
    cases l with
    | nil => rfl
    | cons c cs =>
      have hc : (c != '\n') = true := by
        by_contra hcc
        rw [List.dropWhile_cons, if_neg hcc] at h
        exact absurd h (by simp)
      rw [List.dropWhile_cons, if_pos hc] at h
      show (match (none : Option (List Char × Bool)) with
        | some (rest, flag) => lineScanGo m fuel flag rest
        | none => c :: lineScanGo m fuel (c == '\n') cs) = c :: cs
      have hcnl : (c == '\n') = false := by simpa using hc
      rw [hcnl]
      rw [ih cs (by simpa using hlen) h]

theorem lineScanGo_false_withNL (m : List Char → Option (List Char × Bool))
    (hm : ∀ l r b, m l = some (r, b) → r.length < l.length) :
    ∀ (fuel : Nat) (l u : List Char), l.length ≤ fuel →
      l.dropWhile (fun c => c != '\n') = '\n' :: u →
      lineScanGo m fuel false l =
        l.takeWhile (fun c => c != '\n') ++ '\n' :: lineScanGo m u.length true u := by
  intro fuel
  induction fuel with
  | zero =>
    intro l u h hdrop
    have : l = [] := List.length_eq_zero.mp (Nat.le_zero.mp h)
    subst this
    exact absurd hdrop (by simp)
  | succ fuel ih =>
    intro l u hlen hdrop
    cases l with
    | nil => exact absurd hdrop (by simp)
    | cons c cs =>
      show (match (none : Option (List Char × Bool)) with
        | some (rest, flag) => lineScanGo m fuel flag rest
        | none => c :: lineScanGo m fuel (c == '\n') cs) = _
      by_cases hc : c = '\n'
      · subst hc
        rw [List.dropWhile_cons, if_neg (by decide)] at hdrop
        injection hdrop with _ hcs
        subst hcs
        rw [List.takeWhile_cons, if_neg (by decide), List.nil_append]
        have : (('\n' : Char) == '\n') = true := by decide
        rw [this]
        rw [lineScanGo_irrel m hm fuel cs.length true cs (by simpa using hlen) le_rfl]
      · have hcne : (c != '\n') = true := by simp [hc]
        rw [List.dropWhile_cons, if_pos hcne] at hdrop
        rw [List.takeWhile_cons, if_pos hcne]
        have hcnl : (c == '\n') = false := by simpa using hcne
        rw [hcnl]
        rw [ih cs u (by simpa using hlen) hdrop]
        rfl


/-- No line start of the heading-stripped text matches the sub-heading
pattern: stripping removes every line that a sub-heading match would
need (any line-start run of one to six hashes followed by whitespace),
and copied lines are reproduced verbatim. -/
theorem no_subhead_in_stripped :
    ∀ (n : Nat) (l : List Char) (fuel : Nat), l.length ≤ n → l.length ≤ fuel →
      hasLineB subheadM true (lineScanGo headerM fuel true l) = false := by
  intro n
  induction n with
  | zero =>
    intro l fuel h1 _
    have : l = [] := List.length_eq_zero.mp (Nat.le_zero.mp h1)
    subst this
    cases fuel <;> rfl
  | succ n ih =>
    intro l fuel h1 hf
    cases l with
    | nil => cases fuel <;> rfl
    | cons c cs =>
      cases fuel with
      | zero => exact absurd hf (by simp)
      | succ fuel =>
        rcases hmatch : headerM (c :: cs) with _ | ⟨r, b⟩
        · -- no heading match here: the character is copied
          have hstep : lineScanGo headerM (fuel + 1) true (c :: cs) =
              c :: lineScanGo headerM fuel (c == '\n') cs := by
            show (match (if true then headerM (c :: cs) else none) with
              | some (rest, flag) => lineScanGo headerM fuel flag rest
              | none => c :: lineScanGo headerM fuel (c == '\n') cs) = _
            rw [if_pos rfl, hmatch]
          rw [hstep]
          by_cases hnl : c = '\n'
          · subst hnl
            have h1' : (('\n' : Char) == '\n') = true := rfl
            rw [h1', hasLineB]
            have hhd : (('\n' : Char) :: lineScanGo headerM fuel true cs).head? ≠
                some '#' := by
              simp only [List.head?_cons, ne_eq, Option.some.injEq]
              decide
            rw [subheadM_none_of_head hhd]
            simp only [Option.isSome_none, Bool.and_false, Bool.false_or, h1']
            exact ih cs fuel (by simpa using h1) (by simpa using hf)
          · have hcne : (c != '\n') = true := by simp [hnl]
            have hcnl : (c == '\n') = false := by simpa using hcne
            rw [hcnl]
            have hok : headerOk (c :: cs) = false := headerM_none_iff.mp hmatch
            rcases dropWhile_head_not (fun x => x != '\n') cs with hdnil | ⟨d, u, hdu, hd⟩
            · -- the rest of the document is a single newline-free line
              rw [lineScanGo_false_noNL headerM fuel cs (by simpa using hf) hdnil]
              rw [hasLineB, subheadM_none_of_headerOk hok]
              simp only [Option.isSome_none, Bool.and_false, Bool.false_or]
              rw [hcnl]
              have hall : ∀ x ∈ cs, (x != '\n') = true :=
                List.dropWhile_eq_nil_iff.mp hdnil
              have hw := hasLineB_append_line subheadM cs [] hall
              rw [List.append_nil] at hw
              rw [hw]
              rfl
            · have hd' : d = '\n' := by simpa using hd
              subst hd'
              rw [lineScanGo_false_withNL headerM (fun _ _ _ h => headerM_consumes h)
                fuel cs u (by simpa using hf) hdu]
              rw [hasLineB]
              have hA : ∀ z ∈ cs.takeWhile (fun y => y != '\n'), (z != '\n') = true :=
                fun z hz => List.mem_takeWhile_imp (p := fun y => y != '\n') hz
              have hfl : (c :: (cs.takeWhile (fun x => x != '\n') ++ '\n' ::
                  lineScanGo headerM u.length true u)).takeWhile (fun x => x != '\n') =
                  (c :: cs).takeWhile (fun x => x != '\n') := by
                rw [List.takeWhile_cons, List.takeWhile_cons, if_pos hcne, if_pos hcne]
                congr 1
                rw [List.takeWhile_append_of_pos hA]
                rw [List.takeWhile_cons, if_neg (by decide)]
                rw [List.append_nil]
              have hhd : ((c :: (cs.takeWhile (fun x => x != '\n') ++ '\n' ::
                  lineScanGo headerM u.length true u)).dropWhile
                    (fun x => x != '\n')).head? =
                  ((c :: cs).dropWhile (fun x => x != '\n')).head? := by
                rw [List.dropWhile_cons, List.dropWhile_cons, if_pos hcne, if_pos hcne]
                rw [List.dropWhile_append_of_pos hA]
                rw [List.dropWhile_cons, if_neg (by decide)]
                rw [hdu]
                rfl
              have hok2 : headerOk (c :: (cs.takeWhile (fun x => x != '\n') ++ '\n' ::
                  lineScanGo headerM u.length true u)) = false := by
                rw [headerOk_congr hfl hhd]
                exact hok
              rw [subheadM_none_of_headerOk hok2]
              simp only [Option.isSome_none, Bool.and_false, Bool.false_or]
              rw [hcnl]
              rw [hasLineB_append_line subheadM _ _ hA]
              rw [hasLineB]
              have h1' : (('\n' : Char) == '\n') = true := rfl
              rw [h1']
              simp only [Bool.false_and, Bool.false_or]
              have hulen : u.length ≤ n := by
                have hsuff := (List.dropWhile_suffix (fun x => x != '\n') (l := cs)).length_le
                rw [hdu] at hsuff
                simp only [List.length_cons] at hsuff
                have hcs : cs.length ≤ n := by simpa using h1
                omega
              exact ih u u.length hulen le_rfl
        · -- a heading match: it is removed and scanning resumes after it
          obtain ⟨hshape, hb⟩ := headerM_shape hmatch
          subst hb
          have hlt : r.length < (c :: cs).length := headerM_consumes hmatch
          have hstep : lineScanGo headerM (fuel + 1) true (c :: cs) =
              lineScanGo headerM fuel false r := by
            show (match (if true then headerM (c :: cs) else none) with
              | some (rest, flag) => lineScanGo headerM fuel flag rest
              | none => c :: lineScanGo headerM fuel (c == '\n') cs) = _
            rw [if_pos rfl, hmatch]
          rw [hstep]
          rcases hshape with rfl | ⟨u, rfl⟩
          · cases fuel <;> rfl
          · have hfu : ('\n' :: u).length ≤ fuel := by
              have hcl : (c :: cs).length ≤ fuel + 1 := hf
              simp only [List.length_cons] at hcl hlt ⊢
              omega
            cases fuel with
            | zero => exact absurd hfu (by simp)
            | succ fuel =>
              have hstep2 : lineScanGo headerM (fuel + 1) false ('\n' :: u) =
                  '\n' :: lineScanGo headerM fuel true u := by
                show (match (if false then headerM ('\n' :: u) else none) with
                  | some (rest, flag) => lineScanGo headerM fuel flag rest
                  | none => '\n' :: lineScanGo headerM fuel (('\n' : Char) == '\n') u) = _
                rfl
              rw [hstep2, hasLineB]
              have hhd2 : (('\n' : Char) :: lineScanGo headerM fuel true u).head? ≠
                  some '#' := by
                simp only [List.head?_cons, ne_eq, Option.some.injEq]
                decide
              rw [subheadM_none_of_head hhd2]
              simp only [Option.isSome_none, Bool.and_false, Bool.false_or]
              have h1' : (('\n' : Char) == '\n') = true := rfl
              rw [h1']
              have hul : u.length ≤ n := by
                simp only [List.length_cons] at hlt h1
                omega
              exact ih u fuel hul (by simpa using hfu)

/-- Claim C3 (amended): for every document, the heading-stripping pass
leaves a text whose sub-heading count is 0.  (Later cleaning passes and
the final trim can re-introduce sub-heading lines, so `headings_count`
of the fully cleaned text is not always 0 — see `c3_counterexample`.) -/
theorem c3_amended_strip (l : List Char) :
    lineCount subheadM (stripHeadersL l) = 0 := by
  rw [stripHeadersL, lineScan, lineCount]
  apply lineCountGo_zero
  exact no_subhead_in_stripped l.length l l.length le_rfl le_rfl



theorem subScanGo_nil (m : List Char → Option (List Char × List Char)) :
    ∀ (fuel : Nat), subScanGo m fuel [] = [] := by
  intro fuel; cases fuel <;> rfl

theorem alpha_ne {c : Char} (h : c.isAlpha = true) {d : Char}
    (hd : d.isAlpha = false) : (c != d) = true := by
  by_cases hcd : c = d
  · rw [hcd] at h
    rw [h] at hd
    exact absurd hd (by simp)
  · simp [hcd]

theorem linkM_none_of_head {c : Char} {cs : List Char} (h : c ≠ '[') :
    linkM (c :: cs) = none := by
  unfold linkM
  split
  · rename_i heq
    injection heq with h1 _
    exact absurd h1 h
  · rfl

theorem imageM_none_of_head {c : Char} {cs : List Char} (h : c ≠ '!') :
    imageM (c :: cs) = none := by
  unfold imageM
  split
  · rename_i heq
    injection heq with h1 _
    exact absurd h1 h
  · rfl

theorem imageM_none_of_second {c d : Char} {cs : List Char} (h : d ≠ '[') :
    imageM (c :: d :: cs) = none := by
  unfold imageM
  split
  · rename_i heq
    injection heq with _ h1
    injection h1 with h2 _
    exact absurd h2 h
  · rfl

theorem boldM_none_of_head {c : Char} {cs : List Char} (h : c ≠ '*') :
    boldM (c :: cs) = none := by
  unfold boldM
  split
  · rename_i heq
    injection heq with h1 _
    exact absurd h1 h
  · rfl

theorem italicM_none_of_head {c : Char} {cs : List Char} (h : c ≠ '*') :
    italicM (c :: cs) = none := by
  unfold italicM
  split
  · rename_i heq
    injection heq with h1 _
    exact absurd h1 h
  · rfl

theorem headerOk_false_of_head {c : Char} {cs : List Char} (h : (c == '#') = false) :
    headerOk (c :: cs) = false := by
  rw [headerOk, List.takeWhile_cons, if_neg (by simp [h])]
  rfl

theorem bulletM_none_of_head {c : Char} {cs : List Char} (hws : isWS c = false)
    (hb : (c == '-' || c == '*' || c == '+') = false) : bulletM (c :: cs) = none := by
  unfold bulletM
  simp only [List.takeWhile_cons, hws, Bool.false_eq_true, if_false,
    List.length_nil, List.drop_zero]
  rw [hb]
  rfl

/-- The link matcher on a well-formed link whose text and target avoid
the closing delimiters. -/
theorem linkM_at (alt url rest : List Char) (haltne : alt ≠ [])
    (halt : ∀ c ∈ alt, (c != ']') = true) (hurlne : url ≠ [])
    (hurl : ∀ c ∈ url, (c != ')') = true) :
    linkM ('[' :: (alt ++ ']' :: '(' :: (url ++ ')' :: rest))) = some (alt, rest) := by
  have htxt : (alt ++ ']' :: '(' :: (url ++ ')' :: rest)).takeWhile
      (fun c => c != ']') = alt := by
    rw [List.takeWhile_append_of_pos halt, List.takeWhile_cons, if_neg (by decide),
      List.append_nil]
  have hurltw : (url ++ ')' :: rest).takeWhile (fun c => c != ')') = url := by
    rw [List.takeWhile_append_of_pos hurl, List.takeWhile_cons, if_neg (by decide),
      List.append_nil]
  have haltE : alt.isEmpty = false := by
    cases alt with
    | nil => exact absurd rfl haltne
    | cons _ _ => rfl
  have hurlE : url.isEmpty = false := by
    cases url with
    | nil => exact absurd rfl hurlne
    | cons _ _ => rfl
  show (if (List.takeWhile (fun c => c != ']') (alt ++ ']' :: '(' :: (url ++ ')' :: rest))).isEmpty then none
    else
      match List.drop (List.takeWhile (fun c => c != ']') (alt ++ ']' :: '(' :: (url ++ ')' :: rest))).length (alt ++ ']' :: '(' :: (url ++ ')' :: rest)) with
      | ']' :: '(' :: r2 =>
        if (List.takeWhile (fun c => c != ')') r2).isEmpty then none
        else
          match List.drop (List.takeWhile (fun c => c != ')') r2).length r2 with
          | ')' :: r3 => some (List.takeWhile (fun c => c != ']') (alt ++ ']' :: '(' :: (url ++ ')' :: rest)), r3)
          | _ => none
      | _ => none) = some (alt, rest)
  simp only [htxt]
  rw [if_neg (by simp [haltE])]
  rw [List.drop_left]
  simp only [hurltw]
  rw [if_neg (by simp [hurlE])]
  rw [List.drop_left]
  rfl


/-- Claim C4 (amended): image syntax with an *empty* alt text is removed
entirely, but an image `![alt](url)` with non-empty (here: alphabetic)
alt text is consumed by the link rule, which runs first and replaces
`[alt](url)` by the alt text — cleaning leaves `!` followed by the alt
text, so the alt text remains in the cleaned output. -/
theorem c4_amended (alt url : List Char) (haltne : alt ≠ [])
    (halt : ∀ c ∈ alt, c.isAlpha = true) (hurlne : url ≠ [])
    (hurl : ∀ c ∈ url, c.isAlpha = true) :
    cleanMarkdownL ('!' :: '[' :: (alt ++ ']' :: '(' :: (url ++ [')']))) =
      '!' :: alt ∧
    cleanMarkdownS "![](url)" = "" := by
  refine ⟨?_, by decide⟩
  have haltNL : ∀ c ∈ alt, (c != '\n') = true :=
    fun c hc => alpha_ne (halt c hc) (by decide)
  have hurlNL : ∀ c ∈ url, (c != '\n') = true :=
    fun c hc => alpha_ne (hurl c hc) (by decide)
  have haltRB : ∀ c ∈ alt, (c != ']') = true :=
    fun c hc => alpha_ne (halt c hc) (by decide)
  have hurlRP : ∀ c ∈ url, (c != ')') = true :=
    fun c hc => alpha_ne (hurl c hc) (by decide)
  have hT2n : ∀ x ∈ (alt ++ ']' :: '(' :: (url ++ [')'])), (x != '\n') = true := by
    intro x hx
    simp only [List.mem_append, List.mem_cons, List.mem_singleton,
      List.not_mem_nil, or_false] at hx
    rcases hx with hx | rfl | rfl | hx | rfl
    · exact haltNL x hx
    · decide
    · decide
    · exact hurlNL x hx
    · decide
  have hnws : ∀ x ∈ ('!' :: alt), isWS x = false := by
    intro x hx
    rcases List.mem_cons.mp hx with rfl | hx
    · decide
    · have halpha := halt x hx
      cases hws : isWS x
      · rfl
      · exfalso
        rw [isWS] at hws
        simp only [Bool.or_eq_true, beq_iff_eq] at hws
        rcases hws with ((((rfl | rfl) | rfl) | rfl) | rfl) | rfl <;>
          exact absurd halpha (by decide)
  have hstrip : stripHeadersL ('!' :: '[' :: (alt ++ ']' :: '(' :: (url ++ [')'])))
      = '!' :: '[' :: (alt ++ ']' :: '(' :: (url ++ [')'])) := by
    rw [stripHeadersL, lineScan]
    apply lineScanGo_id headerM _ true _ le_rfl
    rw [hasLineB]
    rw [headerM_none_iff.mpr (headerOk_false_of_head (by decide))]
    simp only [Option.isSome_none, Bool.and_false, Bool.false_or]
    have hflag : (('!' : Char) == '\n') = false := by decide
    rw [hflag]
    have hall : ∀ x ∈ ('[' :: (alt ++ ']' :: '(' :: (url ++ [')']))),
        (x != '\n') = true := by
      intro x hx
      rcases List.mem_cons.mp hx with rfl | hx
      · decide
      · exact hT2n x hx
    have hw := hasLineB_append_line headerM
      ('[' :: (alt ++ ']' :: '(' :: (url ++ [')']))) [] hall
    rw [List.append_nil] at hw
    rw [hw]
    rfl
  have hlink : linkSubL ('!' :: '[' :: (alt ++ ']' :: '(' :: (url ++ [')'])))
      = '!' :: alt := by
    rw [linkSubL, subScan]
    show subScanGo linkM
      (('[' :: (alt ++ ']' :: '(' :: (url ++ [')']))).length + 1)
      ('!' :: '[' :: (alt ++ ']' :: '(' :: (url ++ [')']))) = '!' :: alt
    have h1 : subScanGo linkM
        (('[' :: (alt ++ ']' :: '(' :: (url ++ [')']))).length + 1)
        ('!' :: '[' :: (alt ++ ']' :: '(' :: (url ++ [')']))) =
        '!' :: subScanGo linkM ('[' :: (alt ++ ']' :: '(' :: (url ++ [')']))).length
          ('[' :: (alt ++ ']' :: '(' :: (url ++ [')']))) := by
      show (match linkM ('!' :: '[' :: (alt ++ ']' :: '(' :: (url ++ [')']))) with
        | some (rep, rest) => rep ++ subScanGo linkM
            ('[' :: (alt ++ ']' :: '(' :: (url ++ [')']))).length rest
        | none => '!' :: subScanGo linkM
            ('[' :: (alt ++ ']' :: '(' :: (url ++ [')']))).length
            ('[' :: (alt ++ ']' :: '(' :: (url ++ [')'])))) = _
      rw [linkM_none_of_head (by decide)]
    rw [h1]
    have h2 : subScanGo linkM ((alt ++ ']' :: '(' :: (url ++ [')'])).length + 1)
        ('[' :: (alt ++ ']' :: '(' :: (url ++ [')']))) =
        alt ++ subScanGo linkM (alt ++ ']' :: '(' :: (url ++ [')'])).length [] := by
      show (match linkM ('[' :: (alt ++ ']' :: '(' :: (url ++ [')']))) with
        | some (rep, rest) => rep ++ subScanGo linkM
            (alt ++ ']' :: '(' :: (url ++ [')'])).length rest
        | none => '[' :: subScanGo linkM
            (alt ++ ']' :: '(' :: (url ++ [')'])).length
            (alt ++ ']' :: '(' :: (url ++ [')']))) = _
      rw [linkM_at alt url [] haltne haltRB hurlne hurlRP]
    show '!' :: subScanGo linkM ((alt ++ ']' :: '(' :: (url ++ [')'])).length + 1)
      ('[' :: (alt ++ ']' :: '(' :: (url ++ [')']))) = '!' :: alt
    rw [h2, subScanGo_nil, List.append_nil]
  have himg : imageSubL ('!' :: alt) = '!' :: alt := by
    rw [imageSubL, subScan]
    apply subScan_id imageM _ _ le_rfl
    rw [hasMatchB]
    have h1 : imageM ('!' :: alt) = none := by
      cases alt with
      | nil => rfl
      | cons a as =>
        apply imageM_none_of_second
        intro heq
        have ha := halt a (by simp)
        rw [heq] at ha
        exact absurd ha (by decide)
    rw [h1]
    simp only [Option.isSome_none, Bool.false_or]
    apply hasMatchB_false_of_trigger imageM '!'
      (fun c cs hc => imageM_none_of_head hc)
    intro hmem
    exact absurd (halt '!' hmem) (by decide)
  have htick : '`' ∉ ('!' :: alt) := by
    intro hmem
    rcases List.mem_cons.mp hmem with heq | hmem
    · exact absurd heq (by decide)
    · exact absurd (halt '`' hmem) (by decide)
  have hstar : '*' ∉ ('!' :: alt) := by
    intro hmem
    rcases List.mem_cons.mp hmem with heq | hmem
    · exact absurd heq (by decide)
    · exact absurd (halt '*' hmem) (by decide)
  have hfence : fenceSubL ('!' :: alt) = '!' :: alt := by
    rw [fenceSubL, subScan]
    exact subScan_id fenceM _ _ le_rfl
      (hasMatchB_false_of_trigger fenceM '`' (fun c cs hc => fenceM_none_of_head hc)
        _ htick)
  have hcode : codeSubL ('!' :: alt) = '!' :: alt := by
    rw [codeSubL, subScan]
    exact subScan_id codeM _ _ le_rfl
      (hasMatchB_false_of_trigger codeM '`' (fun c cs hc => codeM_none_of_head hc)
        _ htick)
  have hbold : boldSubL ('!' :: alt) = '!' :: alt := by
    rw [boldSubL, subScan]
    exact subScan_id boldM _ _ le_rfl
      (hasMatchB_false_of_trigger boldM '*' (fun c cs hc => boldM_none_of_head hc)
        _ hstar)
  have hital : italicSubL ('!' :: alt) = '!' :: alt := by
    rw [italicSubL, subScan]
    exact subScan_id italicM _ _ le_rfl
      (hasMatchB_false_of_trigger italicM '*' (fun c cs hc => italicM_none_of_head hc)
        _ hstar)
  have hbull : bulletSubL ('!' :: alt) = '!' :: alt := by
    rw [bulletSubL, lineScan]
    apply lineScanGo_id bulletM _ true _ le_rfl
    rw [hasLineB]
    rw [bulletM_none_of_head (by decide) (by decide)]
    simp only [Option.isSome_none, Bool.and_false, Bool.false_or]
    have hflag : (('!' : Char) == '\n') = false := by decide
    rw [hflag]
    have hw := hasLineB_append_line bulletM alt [] haltNL
    rw [List.append_nil] at hw
    rw [hw]
    rfl
  have htrim : trimL ('!' :: alt) = '!' :: alt := by
    rw [trimL, List.dropWhile_cons, if_neg (by decide)]
    rw [dropTrail]
    cases hrev : ('!' :: alt).reverse with
    | nil => simp at hrev
    | cons d ds =>
      have hdmem : d ∈ ('!' :: alt) := by
        have h0 : d ∈ ('!' :: alt).reverse := by rw [hrev]; simp
        rw [List.mem_reverse] at h0
        exact h0
      have hd : isWS d = false := hnws d hdmem
      rw [List.dropWhile_cons, if_neg (by simp [hd]), ← hrev,
        List.reverse_reverse]
  rw [cleanMarkdownL, hstrip, hlink, himg, hfence, hcode, hbold, hital, hbull, htrim]

theorem c4_amended_witness :
    ("alt".data ≠ [] ∧ "url".data ≠ []) ∧
    cleanMarkdownL ('!' :: '[' :: ("alt".data ++ ']' :: '(' :: ("url".data ++ [')'])))
      = '!' :: "alt".data := by
  refine ⟨⟨by decide, by decide⟩, ?_⟩
  exact (c4_amended "alt".data "url".data (by decide) (by decide) (by decide)
    (by decide)).1


end BlogSEO
